import Mathlib

/-!
Shallow embedding of the text-rewriting engine of `cover.py`.

A Python string is modelled as a `List Char` of Unicode code points.
The five core functions of the source are translated one by one:
`add_spacing_around_dollars`, `find_matching_brace`,
`extract_frac_arguments`, `needs_parentheses`,
`latex_frac_to_typst_slash`.  The two `re.sub` passes are modelled as
direct left-to-right scans with the exact non-overlapping replacement
semantics of `re.sub`; the searches for the patterns
`\frac\s*{` (re.search) and `\s*{` (re.match) are modelled by their
leftmost-match characterisations, which coincide with the regex
semantics because a whitespace character is never an opening brace.
The `while` loop of `latex_frac_to_typst_slash` is written as a
fuel-indexed recursion; fuel equal to the length of the input is shown
to be sufficient (`convLoop_fuel_eq`), mirroring the fact that the
Python loop terminates.
-/

namespace Cover

/-- The opening brace character, written via its code point. -/
def lbrace : Char := Char.ofNat 0x7b

/-- The closing brace character, written via its code point. -/
def rbrace : Char := Char.ofNat 0x7d

/-- Python whitespace (`\s` in a unicode `str` pattern, also the set
stripped by `str.strip()`), over the code points Python treats as space. -/
def isPySpace (c : Char) : Bool :=
  let n := c.toNat
  decide ((9 ≤ n ∧ n ≤ 13) ∨ n = 32 ∨ (28 ≤ n ∧ n ≤ 31) ∨ n = 133 ∨ n = 160 ∨
    n = 0x1680 ∨ (0x2000 ≤ n ∧ n ≤ 0x200a) ∨ n = 0x2028 ∨ n = 0x2029 ∨
    n = 0x202f ∨ n = 0x205f ∨ n = 0x3000)

/-- `CHINESE_CHAR_RANGE`: a CJK ideograph in U+4E00 .. U+9FA5. -/
def isCJK (c : Char) : Bool :=
  decide (0x4e00 ≤ c.toNat ∧ c.toNat ≤ 0x9fa5)

/-- First `re.sub` pass of `add_spacing_around_dollars`:
replace every non-overlapping occurrence of an ideograph directly
followed by a dollar with ideograph, space, dollar. -/
def dollarPassOne : List Char → List Char
  | c :: d :: rest =>
    if isCJK c && d == '$' then c :: ' ' :: '$' :: dollarPassOne rest
    else c :: dollarPassOne (d :: rest)
  | l => l

/-- Second `re.sub` pass of `add_spacing_around_dollars`:
replace every non-overlapping occurrence of a dollar directly followed
by an ideograph with dollar, space, ideograph. -/
def dollarPassTwo : List Char → List Char
  | c :: d :: rest =>
    if c == '$' && isCJK d then '$' :: ' ' :: d :: dollarPassTwo rest
    else c :: dollarPassTwo (d :: rest)
  | l => l

/-- `add_spacing_around_dollars` from the source: the two substitution
passes applied in sequence. -/
def add_spacing_around_dollars (text : List Char) : List Char :=
  dollarPassTwo (dollarPassOne text)

/-- The scanning loop of `find_matching_brace`: walk the characters from
`start_pos` carrying the running depth; on a closing brace that brings
the depth to zero return the current absolute index. -/
def fmbGo : List Char → Nat → Int → Option Nat
  | [], _, _ => none
  | c :: rest, i, depth =>
    if c = lbrace then fmbGo rest (i + 1) (depth + 1)
    else if c = rbrace then
      if depth - 1 = 0 then some i else fmbGo rest (i + 1) (depth - 1)
    else fmbGo rest (i + 1) depth

/-- `find_matching_brace` from the source.  The `ValueError` raised when
`start_pos` does not point at an opening brace is modelled as
`Except.error ()`; the NotFound result `-1` is the ordinary value
`Except.ok (-1)`. -/
def find_matching_brace (text : List Char) (startPos : Nat) : Except Unit Int :=
  if text.length ≤ startPos ∨ ¬ text.getD startPos ' ' = lbrace then Except.error ()
  else
    match fmbGo (text.drop startPos) startPos 0 with
    | some i => Except.ok (Int.ofNat i)
    | none => Except.ok (-1)

/-- The literal token backslash-f-r-a-c. -/
def fracTok : List Char := "\\frac".data

/-- Length of the run of whitespace at the front of a list. -/
def wsRunLen (l : List Char) : Nat := (l.takeWhile isPySpace).length

/-- Search loop for the pattern `\frac\s*{` (the `re.search` in
`extract_frac_arguments`): at each position try the token, then a
whitespace run, then an opening brace; on success return the absolute
index of that opening brace (which is `frac_match.end() - 1` in the
source).  A whitespace character is never `{`, so the greedy `\s*`
matches exactly the maximal whitespace run. -/
def fracSearchAux : List Char → Nat → Option Nat
  | [], _ => none
  | l@(_ :: rest), i =>
    if fracTok.isPrefixOf l then
      let w := wsRunLen (l.drop 5)
      if l.getD (5 + w) ' ' = lbrace then some (i + 5 + w)
      else fracSearchAux rest (i + 1)
    else fracSearchAux rest (i + 1)

/-- `re.search(r'\\frac\s*\{', text)`, returning the position of the
numerator's opening brace of the leftmost match. -/
def fracSearch (s : List Char) : Option Nat := fracSearchAux s 0

/-- Search loop for `str.find('\\frac')`: first index of the literal token. -/
def findTokAux : List Char → Nat → Option Nat
  | [], _ => none
  | l@(_ :: rest), i =>
    if fracTok.isPrefixOf l then some i else findTokAux rest (i + 1)

/-- `'\\frac' in text`. -/
def containsFrac (s : List Char) : Bool := (findTokAux s 0).isSome

/-- `text.find('\\frac')`: first index of the token, `-1` when absent. -/
def pyFindFrac (s : List Char) : Int :=
  match findTokAux s 0 with
  | some i => Int.ofNat i
  | none => -1

/-- Python slice `s[0:b]` with a possibly negative bound `b`. -/
def pyTake (s : List Char) (b : Int) : List Char :=
  if 0 ≤ b then s.take b.toNat else s.take (s.length - b.natAbs)

/-- `extract_frac_arguments` from the source.  The two
`try/except ValueError: return None` blocks appear as the
`Except.error` match arms.  The source computes
`denominator_start = numerator_end + 1 + denominator_start_match.start()`;
`re.match` anchors at position 0 of its argument, so `start()` is the
constant `0`, kept visible as `matchStart` below. -/
def extract_frac_arguments (s : List Char) :
    Option (List Char × List Char × Nat) :=
  match fracSearch s with
  | none => none
  | some braceStart =>
    match find_matching_brace s braceStart with
    | Except.error _ => none
    | Except.ok ne =>
      if ne = -1 then none
      else
        let numEnd := ne.toNat
        let num := (s.drop (braceStart + 1)).take (numEnd - (braceStart + 1))
        let tail := s.drop (numEnd + 1)
        let w := wsRunLen tail
        if tail.getD w ' ' = lbrace then
          let matchStart : Nat := 0
          let denomStart := numEnd + 1 + matchStart
          match find_matching_brace s denomStart with
          | Except.error _ => none
          | Except.ok db =>
            if db = -1 then none
            else
              let dbn := db.toNat
              let den := (s.drop (denomStart + 1)).take (dbn - (denomStart + 1))
              some (num, den, dbn)
        else none

/-- `expression.strip()`. -/
def pyStrip (l : List Char) : List Char :=
  ((l.dropWhile isPySpace).reverse.dropWhile isPySpace).reverse

/-- `OPERATORS_NEEDING_PARENS`. -/
def opChars : List Char := ['+', '-', '*', '/']

/-- The balance loop of `needs_parentheses`: scan with a running
parenthesis balance; report `true` exactly when the source's
`return False` line fires, i.e. a closing parenthesis brings the
balance to zero at the last index. -/
def npLoop : List Char → Int → Nat → Nat → Bool
  | [], _, _, _ => false
  | c :: rest, bal, i, lastIdx =>
    if c = '(' then npLoop rest (bal + 1) (i + 1) lastIdx
    else if c = ')' then
      if bal - 1 = 0 ∧ i = lastIdx then true
      else npLoop rest (bal - 1) (i + 1) lastIdx
    else npLoop rest bal (i + 1) lastIdx

/-- `needs_parentheses` from the source. -/
def needs_parentheses (expression : List Char) : Bool :=
  let expr := pyStrip expression
  if expr.isEmpty then false
  else if (expr.getD 0 ' ' == '(') && (expr.getLastD ' ' == ')') &&
      npLoop expr 0 0 (expr.length - 1) then false
  else if opChars.any (fun op => expr.contains op) || expr.contains ' ' then true
  else false

/-- The `while pos < len(text)` loop of `latex_frac_to_typst_slash`,
written over the remaining suffix `s = text[pos:]`.  The recursive calls
on the numerator and the denominator inline the enclosing function's
fast path (`if '\frac' not in text: return text`).  The recursion is
indexed by fuel; `convLoop_fuel_eq` shows any fuel at least the length
of the suffix yields the same result, so `latex_frac_to_typst_slash`
below runs it with fuel `text.length`. -/
def convLoop : Nat → List Char → List Char
  | 0, s => s
  | fuel + 1, s =>
    match extract_frac_arguments s with
    | none => s
    | some (num, den, endPos) =>
      let fracStart := pyFindFrac s
      let numC := if containsFrac num then convLoop fuel num else num
      let denC := if containsFrac den then convLoop fuel den else den
      let numS := if needs_parentheses numC then '(' :: (numC ++ [')']) else numC
      let denS := if needs_parentheses denC then '(' :: (denC ++ [')']) else denC
      pyTake s fracStart ++ (numS ++ ('/' :: (denS ++ convLoop fuel (s.drop (endPos + 1)))))

/-- `latex_frac_to_typst_slash` from the source. -/
def latex_frac_to_typst_slash (text : List Char) : List Char :=
  if containsFrac text then convLoop text.length text else text

/-- The composition run by the `convert` entry point
(`perform_conversion`): fraction rewriting, then dollar spacing. -/
def convert (text : List Char) : List Char :=
  add_spacing_around_dollars (latex_frac_to_typst_slash text)

/-- No ideograph is directly followed by a dollar: the pattern of the
first substitution pass is absent. -/
def noCJKdollar : List Char → Bool
  | c :: d :: rest => !(isCJK c && d == '$') && noCJKdollar (d :: rest)
  | _ => true

/-- No dollar is directly followed by an ideograph: the pattern of the
second substitution pass is absent. -/
def noDollarCJK : List Char → Bool
  | c :: d :: rest => !(c == '$' && isCJK d) && noDollarCJK (d :: rest)
  | _ => true

/-- Depth contribution of one character: plus one on an opening brace,
minus one on a closing brace, zero otherwise. -/
def charDepth (c : Char) : Int :=
  if c = lbrace then 1 else if c = rbrace then -1 else 0

/-- Running open/close brace count over a stretch of text. -/
def depthOf (l : List Char) : Int := (l.map charDepth).sum

/-- Modelled from the spec (brace matcher contract): search the offsets
left to right for the first one whose inclusive prefix depth returns to
zero. -/
def lfz (D : List Char) : Nat → Nat → Option Nat
  | 0, _ => none
  | fuel + 1, off =>
    if depthOf (D.take (off + 1)) = 0 then some off else lfz D fuel (off + 1)

/-- Modelled from the spec (reference semantics of the brace matcher):
if `startPos` does not point at an opening brace the call is an
`InvalidArgument` error; otherwise return the first index at or after
`startPos` where the running depth returns to zero, or `-1` (NotFound)
if no such index exists before the end of the text. -/
def fmbSpec (text : List Char) (startPos : Nat) : Except Unit Int :=
  if text.length ≤ startPos ∨ ¬ text.getD startPos ' ' = lbrace then Except.error ()
  else
    match lfz (text.drop startPos) (text.drop startPos).length 0 with
    | some off => Except.ok (Int.ofNat (startPos + off))
    | none => Except.ok (-1)

/-- Contribution of one character to the parenthesis balance of
`needs_parentheses`. -/
def parenDepthChar (c : Char) : Int :=
  if c = '(' then 1 else if c = ')' then -1 else 0

/-- Total parenthesis balance of an expression. -/
def parenTotal (l : List Char) : Int := (l.map parenDepthChar).sum

/-- `extract_frac_arguments` in an exception-transparent semantics: the
same computation as `extract_frac_arguments`, but typed in the error
monad so that an uncaught `ValueError` of the brace matcher would show
up as `Except.error`.  The two `except ValueError: return None` handlers
of the source appear as the arms mapping `Except.error` to
`Except.ok none`. -/
def extractE (s : List Char) :
    Except Unit (Option (List Char × List Char × Nat)) :=
  match fracSearch s with
  | none => Except.ok none
  | some braceStart =>
    match find_matching_brace s braceStart with
    | Except.error _ => Except.ok none
    | Except.ok ne =>
      if ne = -1 then Except.ok none
      else
        let numEnd := ne.toNat
        let num := (s.drop (braceStart + 1)).take (numEnd - (braceStart + 1))
        let tail := s.drop (numEnd + 1)
        let w := wsRunLen tail
        if tail.getD w ' ' = lbrace then
          let matchStart : Nat := 0
          let denomStart := numEnd + 1 + matchStart
          match find_matching_brace s denomStart with
          | Except.error _ => Except.ok none
          | Except.ok db =>
            if db = -1 then Except.ok none
            else
              let dbn := db.toNat
              let den := (s.drop (denomStart + 1)).take (dbn - (denomStart + 1))
              Except.ok (some (num, den, dbn))
        else Except.ok none

/-- The rewriting loop in the same exception-transparent semantics:
every step that could observe an escaped brace-matcher error is
sequenced through the error monad. -/
def convLoopE : Nat → List Char → Except Unit (List Char)
  | 0, s => Except.ok s
  | fuel + 1, s =>
    match extractE s with
    | Except.error e => Except.error e
    | Except.ok none => Except.ok s
    | Except.ok (some (num, den, endPos)) =>
      let fracStart := pyFindFrac s
      match (if containsFrac num then convLoopE fuel num else Except.ok num) with
      | Except.error e => Except.error e
      | Except.ok numC =>
        match (if containsFrac den then convLoopE fuel den else Except.ok den) with
        | Except.error e => Except.error e
        | Except.ok denC =>
          match convLoopE fuel (s.drop (endPos + 1)) with
          | Except.error e => Except.error e
          | Except.ok restC =>
            let numS := if needs_parentheses numC then '(' :: (numC ++ [')']) else numC
            let denS := if needs_parentheses denC then '(' :: (denC ++ [')']) else denC
            Except.ok (pyTake s fracStart ++ (numS ++ ('/' :: (denS ++ restC))))

/-- `latex_frac_to_typst_slash` in the exception-transparent semantics. -/
def latexE (text : List Char) : Except Unit (List Char) :=
  if containsFrac text then convLoopE text.length text else Except.ok text

end Cover

namespace Cover

/-- C1: the fraction rewriter maps each of the spec's literal inputs to
the stated output: `\frac{a}{b}` to `a/b`, `\frac{a+b}{c}` to `(a+b)/c`,
`\frac{a}{b+c}` to `a/(b+c)`, and the nested `\frac{\frac{a}{b}}{c}` to
`(a/b)/c` (inner fraction resolved first, then wrapped because it
contains a slash). -/
theorem latex_literal_cases :
    latex_frac_to_typst_slash ("\\frac\x7ba\x7d\x7bb\x7d".data) = "a/b".data ∧
    latex_frac_to_typst_slash ("\\frac\x7ba+b\x7d\x7bc\x7d".data) = "(a+b)/c".data ∧
    latex_frac_to_typst_slash ("\\frac\x7ba\x7d\x7bb+c\x7d".data) = "a/(b+c)".data ∧
    latex_frac_to_typst_slash ("\\frac\x7b\\frac\x7ba\x7d\x7bb\x7d\x7d\x7bc\x7d".data) =
      "(a/b)/c".data := by
  refine ⟨?_, ?_, ?_, ?_⟩ <;> decide

/-- C2: contrary to the claim, whitespace between the numerator's
closing brace and the denominator's opening brace breaks extraction.
The source computes `denominator_start` from `re.match(...).start()`,
which is always `0`, so the brace matcher is invoked on the whitespace
character, raises, and the exception is swallowed into `None`: on
`\frac{a} {b}` extraction fails and the rewriter leaves the text
unchanged, while the same text without the space extracts fine. -/
theorem extract_whitespace_bug :
    extract_frac_arguments ("\\frac\x7ba\x7d \x7bb\x7d".data) = none ∧
    latex_frac_to_typst_slash ("\\frac\x7ba\x7d \x7bb\x7d".data) =
      "\\frac\x7ba\x7d \x7bb\x7d".data ∧
    extract_frac_arguments ("\\frac\x7ba\x7d\x7bb\x7d".data) =
      some ("a".data, "b".data, 10) := by
  refine ⟨?_, ?_, ?_⟩ <;> decide

/-- C3: contrary to the claim, text preceding the converted fraction can
be dropped.  The rewriter locates the emitted prefix with
`text.find('\frac')`, which can hit a bare `\frac` earlier than the
construct the extractor matched: on `\frac \frac{a}{b}` the output is
`a/b`, silently discarding the leading bare `\frac` and the space. -/
theorem latex_drops_bare_frac :
    latex_frac_to_typst_slash ("\\frac \\frac\x7ba\x7d\x7bb\x7d".data) = "a/b".data := by
  decide

/-- C4 counterexample: `needs_parentheses "(a)(b)"` is `false` in the
code (and in the repository's own test suite), not `true` as claimed:
the balance check accepts any expression whose parenthesis balance
returns to zero at the final character, even if the first opening
parenthesis was closed earlier. -/
theorem needs_parentheses_early_close_counterexample :
    needs_parentheses ("(a)(b)".data) = false := by
  decide

end Cover

namespace Cover

lemma space_beq_dollar : ((' ' : Char) == '$') = false := by decide

lemma isCJK_space : isCJK ' ' = false := by decide

lemma isCJK_dollar : isCJK '$' = false := by decide

lemma not_eq_true_of (x : Bool) (h : (!x) = true) : x = false := by
  cases x
  · rfl
  · exact absurd h (by decide)

lemma cjk_beq_dollar {d : Char} (h : isCJK d = true) : (d == '$') = false := by
  cases hbe : (d == '$') with
  | false => rfl
  | true =>
    have hd := eq_of_beq hbe
    subst hd
    exact absurd h (by decide)

lemma noCJKdollar_cons_cons (a b : Char) (l : List Char) :
    noCJKdollar (a :: b :: l) = (!(isCJK a && b == '$') && noCJKdollar (b :: l)) := rfl

lemma noDollarCJK_cons_cons (a b : Char) (l : List Char) :
    noDollarCJK (a :: b :: l) = (!(a == '$' && isCJK b) && noDollarCJK (b :: l)) := rfl

lemma noCJKdollar_cons_notCJK {a : Char} (l : List Char) (h : isCJK a = false) :
    noCJKdollar (a :: l) = noCJKdollar l := by
  cases l with
  | nil => rfl
  | cons b t => rw [noCJKdollar_cons_cons, h]; simp

lemma noCJKdollar_cons_notDollar {b : Char} (a : Char) (l : List Char)
    (h : (b == '$') = false) :
    noCJKdollar (a :: b :: l) = noCJKdollar (b :: l) := by
  rw [noCJKdollar_cons_cons, h]; simp

lemma noCJKdollar_tail {a : Char} {l : List Char} (h : noCJKdollar (a :: l) = true) :
    noCJKdollar l = true := by
  cases l with
  | nil => rfl
  | cons b t =>
    rw [noCJKdollar_cons_cons, Bool.and_eq_true] at h
    exact h.2

lemma noDollarCJK_cons_notDollar {a : Char} (l : List Char) (h : (a == '$') = false) :
    noDollarCJK (a :: l) = noDollarCJK l := by
  cases l with
  | nil => rfl
  | cons b t => rw [noDollarCJK_cons_cons, h]; simp

lemma noDollarCJK_cons_notCJK {b : Char} (a : Char) (l : List Char)
    (h : isCJK b = false) :
    noDollarCJK (a :: b :: l) = noDollarCJK (b :: l) := by
  rw [noDollarCJK_cons_cons, h]; simp

lemma pass1_cons (d : Char) (rest : List Char) :
    ∃ t, dollarPassOne (d :: rest) = d :: t := by
  cases rest with
  | nil => exact ⟨[], rfl⟩
  | cons e rest2 =>
    simp only [dollarPassOne]
    split
    · exact ⟨_, rfl⟩
    · exact ⟨_, rfl⟩

lemma pass2_cons (d : Char) (rest : List Char) :
    ∃ t, dollarPassTwo (d :: rest) = d :: t := by
  cases rest with
  | nil => exact ⟨[], rfl⟩
  | cons e rest2 =>
    simp only [dollarPassTwo]
    split
    · next hcond =>
      rw [Bool.and_eq_true] at hcond
      have hd : d = '$' := eq_of_beq hcond.1
      exact ⟨' ' :: e :: dollarPassTwo rest2, by rw [hd]⟩
    · exact ⟨_, rfl⟩

lemma noCJKdollar_pass1 : ∀ l : List Char, noCJKdollar (dollarPassOne l) = true
  | [] => rfl
  | [_] => rfl
  | c :: d :: rest => by
    simp only [dollarPassOne]
    split
    · rw [noCJKdollar_cons_notDollar _ _ space_beq_dollar,
        noCJKdollar_cons_notCJK _ isCJK_space,
        noCJKdollar_cons_notCJK _ isCJK_dollar]
      exact noCJKdollar_pass1 rest
    · next hcond =>
      obtain ⟨t, ht⟩ := pass1_cons d rest
      rw [ht, noCJKdollar_cons_cons]
      have hc : (isCJK c && d == '$') = false := by
        cases hb : (isCJK c && d == '$')
        · rfl
        · exact absurd hb hcond
      rw [hc]
      simp only [Bool.not_false, Bool.true_and]
      rw [← ht]
      exact noCJKdollar_pass1 (d :: rest)

lemma pass1_id : ∀ l : List Char, noCJKdollar l = true → dollarPassOne l = l
  | [], _ => rfl
  | [_], _ => rfl
  | c :: d :: rest, h => by
    rw [noCJKdollar_cons_cons, Bool.and_eq_true] at h
    obtain ⟨h1, h2⟩ := h
    have h1f : (isCJK c && d == '$') = false := not_eq_true_of _ h1
    have hneg : ¬((isCJK c && d == '$') = true) := by
      rw [h1f]; exact Bool.false_ne_true
    simp only [dollarPassOne]
    rw [if_neg hneg]
    rw [pass1_id (d :: rest) h2]

lemma noDollarCJK_pass2 : ∀ l : List Char, noDollarCJK (dollarPassTwo l) = true
  | [] => rfl
  | [_] => rfl
  | c :: d :: rest => by
    simp only [dollarPassTwo]
    split
    · next hcond =>
      rw [Bool.and_eq_true] at hcond
      have hd : isCJK d = true := hcond.2
      rw [noDollarCJK_cons_notCJK _ _ isCJK_space,
        noDollarCJK_cons_notDollar _ space_beq_dollar,
        noDollarCJK_cons_notDollar _ (cjk_beq_dollar hd)]
      exact noDollarCJK_pass2 rest
    · next hcond =>
      obtain ⟨t, ht⟩ := pass2_cons d rest
      rw [ht, noDollarCJK_cons_cons]
      have hc : (c == '$' && isCJK d) = false := by
        cases hb : (c == '$' && isCJK d)
        · rfl
        · exact absurd hb hcond
      rw [hc]
      simp only [Bool.not_false, Bool.true_and]
      rw [← ht]
      exact noDollarCJK_pass2 (d :: rest)

lemma pass2_id : ∀ l : List Char, noDollarCJK l = true → dollarPassTwo l = l
  | [], _ => rfl
  | [_], _ => rfl
  | c :: d :: rest, h => by
    rw [noDollarCJK_cons_cons, Bool.and_eq_true] at h
    obtain ⟨h1, h2⟩ := h
    have h1f : (c == '$' && isCJK d) = false := not_eq_true_of _ h1
    have hneg : ¬((c == '$' && isCJK d) = true) := by
      rw [h1f]; exact Bool.false_ne_true
    simp only [dollarPassTwo]
    rw [if_neg hneg]
    rw [pass2_id (d :: rest) h2]

lemma noCJKdollar_pass2 : ∀ l : List Char,
    noCJKdollar l = true → noCJKdollar (dollarPassTwo l) = true
  | [], _ => rfl
  | [_], _ => rfl
  | c :: d :: rest, h => by
    have htl : noCJKdollar (d :: rest) = true := noCJKdollar_tail h
    simp only [dollarPassTwo]
    split
    · next hcond =>
      rw [noCJKdollar_cons_notCJK _ isCJK_dollar,
        noCJKdollar_cons_notCJK _ isCJK_space]
      cases rest with
      | nil => rfl
      | cons x xs =>
        obtain ⟨t, ht⟩ := pass2_cons x xs
        rw [ht, noCJKdollar_cons_cons]
        have hpair : (isCJK d && x == '$') = false := by
          rw [noCJKdollar_cons_cons, Bool.and_eq_true] at htl
          exact not_eq_true_of _ htl.1
        rw [hpair]
        simp only [Bool.not_false, Bool.true_and]
        rw [← ht]
        exact noCJKdollar_pass2 (x :: xs) (noCJKdollar_tail htl)
    · next hcond =>
      obtain ⟨t, ht⟩ := pass2_cons d rest
      rw [ht, noCJKdollar_cons_cons]
      have hpair : (isCJK c && d == '$') = false := by
        rw [noCJKdollar_cons_cons, Bool.and_eq_true] at h
        exact not_eq_true_of _ h.1
      rw [hpair]
      simp only [Bool.not_false, Bool.true_and]
      rw [← ht]
      exact noCJKdollar_pass2 (d :: rest) htl

/-- C6: the spacing normalizer is idempotent: applying
`add_spacing_around_dollars` twice equals applying it once, because its
output never has an ideograph directly adjacent to a dollar in either
direction, and both substitution passes require direct adjacency with
no intervening character. -/
theorem add_spacing_idempotent (s : List Char) :
    add_spacing_around_dollars (add_spacing_around_dollars s) =
      add_spacing_around_dollars s := by
  have h1 : noCJKdollar (add_spacing_around_dollars s) = true := by
    simp only [add_spacing_around_dollars]
    exact noCJKdollar_pass2 _ (noCJKdollar_pass1 s)
  have h2 : noDollarCJK (add_spacing_around_dollars s) = true := by
    simp only [add_spacing_around_dollars]
    exact noDollarCJK_pass2 _
  calc add_spacing_around_dollars (add_spacing_around_dollars s)
      = dollarPassTwo (dollarPassOne (add_spacing_around_dollars s)) := rfl
    _ = dollarPassTwo (add_spacing_around_dollars s) := by rw [pass1_id _ h1]
    _ = add_spacing_around_dollars s := pass2_id _ h2

end Cover

namespace Cover

lemma extractE_eq (s : List Char) :
    extractE s = Except.ok (extract_frac_arguments s) := by
  unfold extractE extract_frac_arguments
  cases hfs : fracSearch s with
  | none => rfl
  | some braceStart =>
    simp only []
    cases hfm : find_matching_brace s braceStart with
    | error e => rfl
    | ok ne =>
      simp only []
      by_cases h1 : ne = -1
      · simp only [if_pos h1]
      · simp only [if_neg h1]
        by_cases h2 : (s.drop (ne.toNat + 1)).getD
            (wsRunLen (s.drop (ne.toNat + 1))) ' ' = lbrace
        · simp only [if_pos h2]
          cases hfm2 : find_matching_brace s (ne.toNat + 1 + 0) with
          | error e => rfl
          | ok db =>
            simp only []
            by_cases h3 : db = -1
            · simp only [if_pos h3]
            · simp only [if_neg h3]
        · simp only [if_neg h2]

lemma convLoopE_eq : ∀ (fuel : Nat) (s : List Char),
    convLoopE fuel s = Except.ok (convLoop fuel s)
  | 0, _ => rfl
  | fuel + 1, s => by
    simp only [convLoopE, convLoop]
    rw [extractE_eq s]
    cases hext : extract_frac_arguments s with
    | none => rfl
    | some v =>
      obtain ⟨num, den, e⟩ := v
      simp only []
      have e1 : (if containsFrac num then convLoopE fuel num else Except.ok num) =
          Except.ok (if containsFrac num then convLoop fuel num else num) := by
        cases hc : containsFrac num
        · simp [hc]
        · simp [hc, convLoopE_eq fuel num]
      have e2 : (if containsFrac den then convLoopE fuel den else Except.ok den) =
          Except.ok (if containsFrac den then convLoop fuel den else den) := by
        cases hc : containsFrac den
        · simp [hc]
        · simp [hc, convLoopE_eq fuel den]
      rw [e1, e2, convLoopE_eq fuel (s.drop (e + 1))]

/-- C5: the fraction rewriter is total and never fails: in the
exception-transparent semantics `latexE`, where an uncaught
`ValueError` of the brace matcher would surface as `Except.error`, the
top-level rewriter always returns `Except.ok` of the value of the pure
total function `latex_frac_to_typst_slash` — every internal call to the
matcher either satisfies its precondition or has its error caught and
turned into NotFound inside `extract_frac_arguments`. -/
theorem convert_never_raises (text : List Char) :
    latexE text = Except.ok (latex_frac_to_typst_slash text) := by
  unfold latexE latex_frac_to_typst_slash
  by_cases h : containsFrac text = true
  · simp only [if_pos h]
    exact convLoopE_eq text.length text
  · simp only [if_neg h]

end Cover

namespace Cover

lemma extract_nil : extract_frac_arguments ([] : List Char) = none := rfl

lemma extract_shrink_lem (s num den : List Char) (e : Nat)
    (h : extract_frac_arguments s = some (num, den, e)) :
    num.length < s.length ∧ den.length < s.length ∧
      (s.drop (e + 1)).length < s.length := by
  have hs : s ≠ [] := by
    rintro rfl
    rw [extract_nil] at h
    exact Option.noConfusion h
  have hlen : 0 < s.length := List.length_pos.mpr hs
  unfold extract_frac_arguments at h
  cases hfs : fracSearch s with
  | none => rw [hfs] at h; exact Option.noConfusion h
  | some braceStart =>
    rw [hfs] at h
    simp only [] at h
    cases hfm : find_matching_brace s braceStart with
    | error er => rw [hfm] at h; exact Option.noConfusion h
    | ok ne =>
      rw [hfm] at h
      simp only [] at h
      by_cases h1 : ne = -1
      · rw [if_pos h1] at h; exact Option.noConfusion h
      · rw [if_neg h1] at h
        by_cases h2 : (s.drop (ne.toNat + 1)).getD
            (wsRunLen (s.drop (ne.toNat + 1))) ' ' = lbrace
        · rw [if_pos h2] at h
          cases hfm2 : find_matching_brace s (ne.toNat + 1 + 0) with
          | error er => rw [hfm2] at h; exact Option.noConfusion h
          | ok db =>
            rw [hfm2] at h
            simp only [] at h
            by_cases h3 : db = -1
            · rw [if_pos h3] at h; exact Option.noConfusion h
            · rw [if_neg h3] at h
              rw [Option.some.injEq, Prod.mk.injEq, Prod.mk.injEq] at h
              obtain ⟨hnum, hden, he⟩ := h
              subst hnum; subst hden; subst he
              refine ⟨?_, ?_, ?_⟩
              · rw [List.length_take, List.length_drop]
                have hml := Nat.min_le_right (ne.toNat - (braceStart + 1))
                  (s.length - (braceStart + 1))
                omega
              · rw [List.length_take, List.length_drop]
                have hml := Nat.min_le_right (db.toNat - (ne.toNat + 1 + 0 + 1))
                  (s.length - (ne.toNat + 1 + 0 + 1))
                omega
              · rw [List.length_drop]
                omega
        · rw [if_neg h2] at h
          exact Option.noConfusion h

lemma convLoop_nil : ∀ fuel : Nat, convLoop fuel [] = []
  | 0 => rfl
  | _ + 1 => rfl

lemma convLoop_fuel_eq : ∀ (n : Nat) (s : List Char) (f1 f2 : Nat),
    s.length ≤ n → s.length ≤ f1 → s.length ≤ f2 →
    convLoop f1 s = convLoop f2 s := by
  intro n
  induction n with
  | zero =>
    intro s f1 f2 hn _ _
    have hs : s = [] := List.length_eq_zero.mp (Nat.le_zero.mp hn)
    subst hs
    rw [convLoop_nil, convLoop_nil]
  | succ n ih =>
    intro s f1 f2 hn h1 h2
    cases s with
    | nil => rw [convLoop_nil, convLoop_nil]
    | cons c t =>
      have hpos : 0 < (c :: t).length := by simp
      obtain ⟨g1, rfl⟩ : ∃ g, f1 = g + 1 := ⟨f1 - 1, by omega⟩
      obtain ⟨g2, rfl⟩ : ∃ g, f2 = g + 1 := ⟨f2 - 1, by omega⟩
      simp only [convLoop]
      cases hext : extract_frac_arguments (c :: t) with
      | none => rfl
      | some v =>
        obtain ⟨num, den, e⟩ := v
        simp only []
        obtain ⟨hnum, hden, hdrop⟩ := extract_shrink_lem (c :: t) num den e hext
        have ihnum : convLoop g1 num = convLoop g2 num := by
          apply ih num g1 g2 <;> omega
        have ihden : convLoop g1 den = convLoop g2 den := by
          apply ih den g1 g2 <;> omega
        have ihrest : convLoop g1 ((c :: t).drop (e + 1)) =
            convLoop g2 ((c :: t).drop (e + 1)) := by
          apply ih _ g1 g2 <;> omega
        rw [ihnum, ihden, ihrest]

/-- C9: the fraction rewriter terminates on every input: the numerator
and denominator returned by a successful extraction are strictly
shorter than the text they were extracted from, the cursor strictly
advances (the remaining suffix after the consumed span is strictly
shorter), and consequently the fuel-indexed loop stabilises: any fuel
of at least the length of the input computes the same value, so
`latex_frac_to_typst_slash` is a total function with no fixed-point
iteration. -/
theorem conv_termination :
    (∀ (s num den : List Char) (e : Nat),
      extract_frac_arguments s = some (num, den, e) →
      num.length < s.length ∧ den.length < s.length ∧
        (s.drop (e + 1)).length < s.length) ∧
    (∀ (fuel : Nat) (s : List Char), s.length ≤ fuel →
      convLoop fuel s = convLoop s.length s) := by
  constructor
  · exact fun s num den e h => extract_shrink_lem s num den e h
  · intro fuel s h
    exact convLoop_fuel_eq s.length s fuel s.length le_rfl h le_rfl

theorem conv_termination_witness :
    (("a".data).length < ("\\frac\x7ba\x7d\x7bb\x7d".data).length ∧
      ("b".data).length < ("\\frac\x7ba\x7d\x7bb\x7d".data).length ∧
      (("\\frac\x7ba\x7d\x7bb\x7d".data).drop (10 + 1)).length <
        ("\\frac\x7ba\x7d\x7bb\x7d".data).length) ∧
    convLoop 20 ("\\frac\x7ba\x7d\x7bb\x7d".data) =
      convLoop (("\\frac\x7ba\x7d\x7bb\x7d".data).length)
        ("\\frac\x7ba\x7d\x7bb\x7d".data) :=
  ⟨conv_termination.1 ("\\frac\x7ba\x7d\x7bb\x7d".data)
      ("a".data) ("b".data) 10 (by decide),
    conv_termination.2 20 ("\\frac\x7ba\x7d\x7bb\x7d".data) (by decide)⟩

/-- C8: on structural parse failure the rewriter degrades silently:
whenever extraction on the remaining suffix returns NotFound, the loop
appends that entire suffix verbatim and stops, so all text after a
broken fraction, including any later well-formed `\frac` occurrences,
is left unconverted. -/
theorem conv_stops_on_failure (s : List Char) (fuel : Nat)
    (h : extract_frac_arguments s = none) :
    convLoop fuel s = s ∧ latex_frac_to_typst_slash s = s := by
  have hc : ∀ f : Nat, convLoop f s = s := by
    intro f
    cases f with
    | zero => rfl
    | succ g => simp only [convLoop, h]
  refine ⟨hc fuel, ?_⟩
  unfold latex_frac_to_typst_slash
  by_cases hf : containsFrac s = true
  · simp only [if_pos hf]; exact hc _
  · simp only [if_neg hf]

theorem conv_stops_on_failure_witness :
    convLoop 7 ("\\frac\x7ba \\frac\x7bb\x7d\x7bc\x7d".data) =
      "\\frac\x7ba \\frac\x7bb\x7d\x7bc\x7d".data ∧
    latex_frac_to_typst_slash ("\\frac\x7ba \\frac\x7bb\x7d\x7bc\x7d".data) =
      "\\frac\x7ba \\frac\x7bb\x7d\x7bc\x7d".data :=
  conv_stops_on_failure ("\\frac\x7ba \\frac\x7bb\x7d\x7bc\x7d".data) 7 (by decide)

/-- C10: the brace matcher treats an out-of-range start position as a
contract violation, not as NotFound: whenever `startPos` is at least the
length of the text the call errors exactly like a non-brace character,
and the NotFound value `-1` is only ever returned when `startPos` is in
range and points at an opening brace. -/
theorem fmb_out_of_range (text : List Char) (startPos : Nat) :
    (text.length ≤ startPos → find_matching_brace text startPos = Except.error ()) ∧
    (find_matching_brace text startPos = Except.ok (-1) →
      startPos < text.length ∧ text.getD startPos ' ' = lbrace) := by
  constructor
  · intro h
    unfold find_matching_brace
    rw [if_pos (Or.inl h)]
  · intro h
    by_cases hp : text.length ≤ startPos ∨ ¬ text.getD startPos ' ' = lbrace
    · unfold find_matching_brace at h
      rw [if_pos hp] at h
      exact Except.noConfusion h
    · push_neg at hp
      exact ⟨hp.1, hp.2⟩

theorem fmb_out_of_range_witness :
    find_matching_brace ("ab".data) 5 = Except.error () ∧
    (0 < ("\x7b".data).length ∧ ("\x7b".data).getD 0 ' ' = lbrace) :=
  ⟨(fmb_out_of_range ("ab".data) 5).1 (by decide),
    (fmb_out_of_range ("\x7b".data) 0).2 (by rfl)⟩

end Cover

namespace Cover

lemma depthOf_append (a b : List Char) :
    depthOf (a ++ b) = depthOf a + depthOf b := by
  simp [depthOf]

lemma depthOf_singleton (c : Char) : depthOf [c] = charDepth c := by
  simp [depthOf]

lemma fmbGo_eq_lfz (i0 : Nat) (l : List Char) : ∀ seg : List Char, seg ≠ [] →
    (∀ n, 0 < n → n ≤ seg.length → 1 ≤ depthOf (seg.take n)) →
    fmbGo l (i0 + seg.length) (depthOf seg) =
      Option.map (fun off => i0 + off) (lfz (seg ++ l) l.length seg.length) := by
  induction l with
  | nil =>
    intro seg _ _
    rfl
  | cons c rest ih =>
    intro seg hne hpre
    have hd : 1 ≤ depthOf seg := by
      have h := hpre seg.length (List.length_pos.mpr hne) le_rfl
      rwa [List.take_length] at h
    have hsplit : seg ++ c :: rest = (seg ++ [c]) ++ rest := by simp
    have htake : (seg ++ c :: rest).take (seg.length + 1) = seg ++ [c] := by
      rw [hsplit]
      exact List.take_left' (by simp)
    have hdc : depthOf (seg ++ [c]) = depthOf seg + charDepth c := by
      rw [depthOf_append, depthOf_singleton]
    have hlfz : lfz (seg ++ c :: rest) (c :: rest).length seg.length =
        (if depthOf (seg ++ [c]) = 0 then some seg.length
         else lfz (seg ++ c :: rest) rest.length (seg.length + 1)) := by
      show lfz (seg ++ c :: rest) (rest.length + 1) seg.length = _
      simp only [lfz]
      rw [htake]
    have hpreExt : ∀ dcv : Int, depthOf (seg ++ [c]) = dcv → 1 ≤ dcv →
        (∀ n, 0 < n → n ≤ (seg ++ [c]).length → 1 ≤ depthOf ((seg ++ [c]).take n)) := by
      intro dcv hdcv hge n hn hle
      rcases Nat.lt_or_ge n (seg.length + 1) with hlt | hge2
      · have hn2 : n ≤ seg.length := by omega
        rw [List.take_append_of_le_length hn2]
        exact hpre n hn hn2
      · have hlen1 : (seg ++ [c]).length = seg.length + 1 := by simp
        have hn3 : n = seg.length + 1 := by rw [hlen1] at hle; omega
        subst hn3
        rw [← hlen1, List.take_length, hdcv]
        exact hge
    by_cases hc1 : c = lbrace
    · subst hc1
      have hcd : charDepth lbrace = 1 := by simp [charDepth]
      have hstep : fmbGo (lbrace :: rest) (i0 + seg.length) (depthOf seg) =
          fmbGo rest (i0 + seg.length + 1) (depthOf seg + 1) := by
        simp [fmbGo]
      rw [hstep, hlfz]
      rw [if_neg (by rw [hdc, hcd]; omega)]
      have ihh := ih (seg ++ [lbrace]) (by simp)
        (hpreExt (depthOf seg + 1) (by rw [hdc, hcd]) (by omega))
      have hlen1 : (seg ++ [lbrace]).length = seg.length + 1 := by simp
      rw [hlen1, hdc, hcd, ← hsplit, ← Nat.add_assoc] at ihh
      exact ihh
    · by_cases hc2 : c = rbrace
      · subst hc2
        have hbne : rbrace ≠ lbrace := by decide
        have hcd : charDepth rbrace = -1 := by simp [charDepth, hbne]
        have hstep : fmbGo (rbrace :: rest) (i0 + seg.length) (depthOf seg) =
            (if depthOf seg - 1 = 0 then some (i0 + seg.length)
             else fmbGo rest (i0 + seg.length + 1) (depthOf seg - 1)) := by
          simp [fmbGo, hbne]
        have hdepth : depthOf (seg ++ [rbrace]) = depthOf seg - 1 := by
          rw [hdc, hcd]; omega
        rw [hstep, hlfz]
        by_cases hz : depthOf seg - 1 = 0
        · rw [if_pos hz, if_pos (by rw [hdepth]; exact hz)]
          rfl
        · rw [if_neg hz, if_neg (by rw [hdepth]; exact hz)]
          have ihh := ih (seg ++ [rbrace]) (by simp)
            (hpreExt (depthOf seg - 1) hdepth (by omega))
          have hlen1 : (seg ++ [rbrace]).length = seg.length + 1 := by simp
          rw [hlen1, hdepth, ← hsplit, ← Nat.add_assoc] at ihh
          exact ihh
      · have hcd : charDepth c = 0 := by simp [charDepth, hc1, hc2]
        have hstep : fmbGo (c :: rest) (i0 + seg.length) (depthOf seg) =
            fmbGo rest (i0 + seg.length + 1) (depthOf seg) := by
          simp only [fmbGo, if_neg hc1, if_neg hc2]
        have hdepth : depthOf (seg ++ [c]) = depthOf seg := by
          rw [hdc, hcd]; omega
        rw [hstep, hlfz]
        rw [if_neg (by rw [hdepth]; omega)]
        have ihh := ih (seg ++ [c]) (by simp)
          (hpreExt (depthOf seg) hdepth hd)
        have hlen1 : (seg ++ [c]).length = seg.length + 1 := by simp
        rw [hlen1, hdepth, ← hsplit, ← Nat.add_assoc] at ihh
        exact ihh

/-- C7: the brace matcher satisfies its contract: if `startPos` does not
point at an opening brace the call errors (`InvalidArgument`); otherwise
it returns the first index at or after `startPos` where the running
depth (incremented on an opening brace, decremented on a closing brace)
returns to zero, or `-1` (NotFound, not an error) if no such index
exists before the end of the text — `find_matching_brace` coincides
with the spec-side reference `fmbSpec` on every input. -/
theorem fmb_matches_spec (text : List Char) (startPos : Nat) :
    find_matching_brace text startPos = fmbSpec text startPos := by
  unfold find_matching_brace fmbSpec
  by_cases hp : text.length ≤ startPos ∨ ¬ text.getD startPos ' ' = lbrace
  · rw [if_pos hp, if_pos hp]
  · rw [if_neg hp, if_neg hp]
    push_neg at hp
    obtain ⟨hlt, heq⟩ := hp
    have hdrop : text.drop startPos = lbrace :: text.drop (startPos + 1) := by
      rw [List.drop_eq_getElem_cons hlt]
      congr 1
      rw [← List.getD_eq_getElem text ' ' hlt]
      exact heq
    rw [hdrop]
    have hstep1 : fmbGo (lbrace :: text.drop (startPos + 1)) startPos 0 =
        fmbGo (text.drop (startPos + 1)) (startPos + 1) 1 := by
      simp [fmbGo]
    have hlen : (lbrace :: text.drop (startPos + 1)).length =
        (text.drop (startPos + 1)).length + 1 := by simp
    have hstep2 : lfz (lbrace :: text.drop (startPos + 1))
        ((text.drop (startPos + 1)).length + 1) 0 =
        lfz (lbrace :: text.drop (startPos + 1)) (text.drop (startPos + 1)).length 1 := by
      simp only [lfz]
      rw [if_neg (by
        rw [show (lbrace :: text.drop (startPos + 1)).take (0 + 1) = [lbrace] from rfl,
          depthOf_singleton]
        simp [charDepth])]
    have hmain := fmbGo_eq_lfz startPos (text.drop (startPos + 1)) [lbrace]
      (by simp)
      (by
        intro n hn hle
        have hn1 : n = 1 := by simp at hle; omega
        subst hn1
        rw [show ([lbrace] : List Char).take 1 = [lbrace] from rfl, depthOf_singleton]
        simp [charDepth])
    rw [show ([lbrace] : List Char).length = 1 from rfl,
      show depthOf [lbrace] = 1 from by rw [depthOf_singleton]; simp [charDepth],
      show [lbrace] ++ text.drop (startPos + 1) = lbrace :: text.drop (startPos + 1)
        from by simp] at hmain
    rw [hlen, hstep2, hstep1, hmain]
    cases lfz (lbrace :: text.drop (startPos + 1)) (text.drop (startPos + 1)).length 1 with
    | none => rfl
    | some off => rfl

end Cover

namespace Cover

lemma parenTotal_cons (c : Char) (l : List Char) :
    parenTotal (c :: l) = parenDepthChar c + parenTotal l := by
  simp [parenTotal]

lemma getLastD_irrel {l : List Char} (h : l ≠ []) (x y : Char) :
    l.getLastD x = l.getLastD y := by
  cases l with
  | nil => exact absurd rfl h
  | cons a t => rw [List.getLastD_cons, List.getLastD_cons]

lemma npLoop_cons (c : Char) (rest : List Char) (bal : Int) (i lastIdx : Nat) :
    npLoop (c :: rest) bal i lastIdx =
      (if c = '(' then npLoop rest (bal + 1) (i + 1) lastIdx
       else if c = ')' then
         (if bal - 1 = 0 ∧ i = lastIdx then true
          else npLoop rest (bal - 1) (i + 1) lastIdx)
       else npLoop rest bal (i + 1) lastIdx) := rfl

lemma npLoop_hits : ∀ (l : List Char) (bal : Int) (i lastIdx : Nat),
    i + l.length = lastIdx + 1 → l ≠ [] → l.getLastD ' ' = ')' →
    bal + parenTotal l = 0 → npLoop l bal i lastIdx = true := by
  intro l
  induction l with
  | nil => intro bal i lastIdx _ hne _ _; exact absurd rfl hne
  | cons c t ih =>
    intro bal i lastIdx hlen hne hlast htot
    cases t with
    | nil =>
      have hc : c = ')' := by
        rw [List.getLastD_cons] at hlast
        exact hlast
      subst hc
      have hi : i = lastIdx := by
        simp only [List.length_cons, List.length_nil] at hlen
        omega
      have hb : bal - 1 = 0 := by
        rw [parenTotal_cons] at htot
        rw [show parenDepthChar ')' = -1 from by decide,
          show parenTotal ([] : List Char) = 0 from rfl] at htot
        omega
      have hne1 : ¬ ((')' : Char) = '(') := by decide
      rw [npLoop_cons, if_neg hne1, if_pos rfl, if_pos (And.intro hb hi)]
    | cons d t2 =>
      have hlast2 : (d :: t2).getLastD ' ' = ')' := by
        rw [List.getLastD_cons] at hlast
        rw [getLastD_irrel (by simp) ' ' c]
        exact hlast
      have hlt : i < lastIdx := by
        simp only [List.length_cons] at hlen
        omega
      have hlen2 : (i + 1) + (d :: t2).length = lastIdx + 1 := by
        simp only [List.length_cons] at hlen ⊢
        omega
      by_cases hc1 : c = '('
      · subst hc1
        have htot2 : (bal + 1) + parenTotal (d :: t2) = 0 := by
          rw [parenTotal_cons, show parenDepthChar '(' = 1 from by decide] at htot
          omega
        rw [npLoop_cons, if_pos rfl]
        exact ih (bal + 1) (i + 1) lastIdx hlen2 (by simp) hlast2 htot2
      · by_cases hc2 : c = ')'
        · subst hc2
          have hne1 : ¬ ((')' : Char) = '(') := by decide
          have htot2 : (bal - 1) + parenTotal (d :: t2) = 0 := by
            rw [parenTotal_cons, show parenDepthChar ')' = -1 from by decide] at htot
            omega
          rw [npLoop_cons, if_neg hne1, if_pos rfl]
          rw [if_neg (by
            rintro ⟨h1, h2⟩
            exact absurd h2 (Nat.ne_of_lt hlt))]
          exact ih (bal - 1) (i + 1) lastIdx hlen2 (by simp) hlast2 htot2
        · have htot2 : bal + parenTotal (d :: t2) = 0 := by
            rw [parenTotal_cons, show parenDepthChar c = 0 from by
              simp [parenDepthChar, hc1, hc2]] at htot
            omega
          rw [npLoop_cons, if_neg hc1, if_neg hc2]
          exact ih bal (i + 1) lastIdx hlen2 (by simp) hlast2 htot2

/-- C4 (amended): when a trimmed expression starts with an opening
parenthesis and ends with a closing parenthesis, the code treats it as
already fully wrapped — returning `false` — whenever the total
parenthesis balance is zero, because the balance check fires at the
final character even if the first parenthesis was matched by an earlier
one; the early-closing case does NOT fall through to the operator
check, and in particular `needs_parentheses "(a)(b)" = false`. -/
theorem needs_parentheses_wrapped_balanced (e : List Char)
    (h0 : pyStrip e ≠ [])
    (h1 : (pyStrip e).getD 0 ' ' = '(')
    (h2 : (pyStrip e).getLastD ' ' = ')')
    (h3 : parenTotal (pyStrip e) = 0) :
    needs_parentheses e = false := by
  simp only [needs_parentheses]
  have hie : (pyStrip e).isEmpty = false := List.isEmpty_eq_false.mpr h0
  have hne0 : ¬ ((pyStrip e).isEmpty = true) := by
    rw [hie]; exact Bool.false_ne_true
  have hcond : (((pyStrip e).getD 0 ' ' == '(') && ((pyStrip e).getLastD ' ' == ')') &&
      npLoop (pyStrip e) 0 0 ((pyStrip e).length - 1)) = true := by
    have hb1 : ((pyStrip e).getD 0 ' ' == '(') = true := beq_iff_eq.mpr h1
    have hb2 : ((pyStrip e).getLastD ' ' == ')') = true := beq_iff_eq.mpr h2
    have hlp : npLoop (pyStrip e) 0 0 ((pyStrip e).length - 1) = true := by
      apply npLoop_hits (pyStrip e) 0 0 ((pyStrip e).length - 1)
      · have := List.length_pos.mpr h0
        omega
      · exact h0
      · exact h2
      · omega
    rw [hb1, hb2, hlp]
    rfl
  rw [if_neg hne0, if_pos hcond]

theorem needs_parentheses_wrapped_witness :
    (pyStrip ("(a)(b)".data) ≠ [] ∧
      (pyStrip ("(a)(b)".data)).getD 0 ' ' = '(' ∧
      (pyStrip ("(a)(b)".data)).getLastD ' ' = ')' ∧
      parenTotal (pyStrip ("(a)(b)".data)) = 0) ∧
    needs_parentheses ("(a)(b)".data) = false :=
  ⟨⟨by decide, by decide, by decide, by decide⟩,
    needs_parentheses_wrapped_balanced ("(a)(b)".data)
      (by decide) (by decide) (by decide) (by decide)⟩

end Cover
